import Mathlib

/-!
Shallow embedding of two cores of the Lisk SDK node and proofs about them:

* the BFT `FinalityManager`
  (`src/framework/src/modules/chain/bft/finality_manager.js`), together with
  a model of the `HeadersList` it uses (whose source file is not part of the
  sources at hand and is therefore modelled from the specification), and
* the P2P coordinator's inbound-connection and peer-discovery handlers and
  its `start`/`stop` lifecycle (the TypeScript `P2P` class).

JavaScript objects keyed by numeric heights (`preVotes`, `preCommits`) are
modelled by association lists sorted in ascending key order, mirroring the
ascending integer-key iteration order of `Object.keys`.
-/

namespace LiskSpec

/-- A block header as consumed by the FinalityManager.  Heights are
natural numbers; the schema guarantees they are non-negative. -/
structure BlockHeader where
  height : Nat
  delegatePublicKey : String
  maxHeightPreviouslyForged : Nat
  maxHeightPrevoted : Nat
  delegateMinHeightActive : Nat
  deriving Repr, DecidableEq

/-- Per-delegate vote bookkeeping (`this.state[delegatePublicKey]`). -/
structure DelegateState where
  maxPreVoteHeight : Nat
  maxPreCommitHeight : Nat
  deriving Repr, DecidableEq

/-- `preVotes` / `preCommits`: a JS object keyed by heights, modelled as an
association list in ascending key order (JS iterates integer keys
ascending). -/
abbrev VoteMap := List (Nat × Nat)

/-- `m[j] = (m[j] || 0) + 1`: increment the tally at key `j`, inserting the
key at its ascending-order position when absent. -/
def VoteMap.incr : VoteMap → Nat → VoteMap
  | [], j => [(j, 1)]
  | (k, v) :: rest, j =>
    if j < k then (j, 1) :: (k, v) :: rest
    else if j = k then (k, v + 1) :: rest
    else (k, v) :: VoteMap.incr rest j

/-- Read the tally at key `j` (`undefined` when absent). -/
def VoteMap.get (m : VoteMap) (j : Nat) : Option Nat :=
  (m.find? (fun kv => kv.1 = j)).map (fun kv => kv.2)

/-- The JS comparison `m[j] >= t` (false when `m[j]` is `undefined`). -/
def VoteMap.meets (m : VoteMap) (t j : Nat) : Bool :=
  match m.get j with
  | some v => t ≤ v
  | none => false

/-- `Object.keys(m).reverse().find(key => m[key] >= t)`: the last key in
ascending order whose tally reaches `t`. -/
def VoteMap.findHighest (m : VoteMap) (t : Nat) : Option Nat :=
  (m.reverse.find? (fun kv => t ≤ kv.2)).map (fun kv => kv.1)

/-- `Object.keys(m).slice(0, -max).forEach(delete ...)`: keep only the last
`max` keys. -/
def VoteMap.trim (m : VoteMap) (max : Nat) : VoteMap :=
  m.drop (m.length - max)

/-- Modelled from the spec: the `HeadersList` class (its source file
`headers_list.js` is not among the sources): "A bounded ordered sequence of
headers, size = activeDelegates × 5.  Supports: append (highest only),
remove-above(height), get-by-height, first, last, top(n).  Eviction is FIFO
on the low-height end when full." -/
structure HeadersList where
  size : Nat
  items : List BlockHeader
  deriving Repr, DecidableEq

/-- Append a header at the high end, evicting from the low end when the
list exceeds its size. -/
def HeadersList.add (l : HeadersList) (h : BlockHeader) : HeadersList :=
  let items := l.items ++ [h]
  { l with items := items.drop (items.length - l.size) }

/-- Remove every header with height strictly above `aboveHeight`. -/
def HeadersList.remove (l : HeadersList) (aboveHeight : Nat) : HeadersList :=
  { l with items := l.items.filter (fun h => h.height ≤ aboveHeight) }

/-- Get the stored header at exactly the given height, if any. -/
def HeadersList.getAt (l : HeadersList) (height : Nat) : Option BlockHeader :=
  l.items.find? (fun h => h.height = height)

/-- The last `n` headers, in ascending height order. -/
def HeadersList.top (l : HeadersList) (n : Nat) : List BlockHeader :=
  l.items.drop (l.items.length - n)

/-- Height of the lowest stored header, or 0 when empty. -/
def HeadersList.minHeight (l : HeadersList) : Nat :=
  match l.items.head? with
  | some h => h.height
  | none => 0

/-- Height of the highest stored header, or 0 when empty. -/
def HeadersList.maxHeight (l : HeadersList) : Nat :=
  match l.items.getLast? with
  | some h => h.height
  | none => 0

/-- Errors thrown by `addBlockHeader` (schema validation and
`verifyBlockHeaders`). -/
inductive BftError where
  | invalidHeaderSchema
  | invalidAttribute
  | forkChoiceRule
  | chainDisjoint
  | lowerChainBranch
  deriving Repr, DecidableEq

/-- The FinalityManager state: constants derived from `activeDelegates`
plus the mutable fields of the JS class. -/
structure FinalityManager where
  activeDelegates : Nat
  preVoteThreshold : Nat
  preCommitThreshold : Nat
  processingThreshold : Nat
  maxHeaders : Nat
  headers : HeadersList
  finalizedHeight : Nat
  chainMaxHeightPrevoted : Nat
  state : List (String × DelegateState)
  preVotes : VoteMap
  preCommits : VoteMap
  deriving Repr, DecidableEq

/-- The constructor: thresholds `⌈2D/3⌉`, processing threshold
`D · BFT_ROUND_THRESHOLD − 1` with `BFT_ROUND_THRESHOLD = 3`, and
`maxHeaders = 5D`. -/
def FinalityManager.init (finalizedHeight activeDelegates : Nat) :
    FinalityManager :=
  { activeDelegates := activeDelegates
    preVoteThreshold := (2 * activeDelegates + 2) / 3
    preCommitThreshold := (2 * activeDelegates + 2) / 3
    processingThreshold := activeDelegates * 3 - 1
    maxHeaders := activeDelegates * 5
    headers := { size := activeDelegates * 5, items := [] }
    finalizedHeight := finalizedHeight
    chainMaxHeightPrevoted := 0
    state := []
    preVotes := []
    preCommits := [] }

/-- Look up a delegate's vote bookkeeping. -/
def FinalityManager.lookupState (s : FinalityManager) (pk : String) :
    Option DelegateState :=
  (s.state.find? (fun kv => kv.1 = pk)).map (fun kv => kv.2)

/-- `this.state[pk] = d`: replace or append the delegate's entry. -/
def stateInsert : List (String × DelegateState) → String → DelegateState →
    List (String × DelegateState)
  | [], pk, d => [(pk, d)]
  | (k, v) :: rest, pk, d =>
    if k = pk then (k, d) :: rest else (k, v) :: stateInsert rest pk d

end LiskSpec

namespace LiskSpec

/-- The `while` loop of `_getMinValidHeightToPreCommit`, walking the
`maxHeightPreviouslyForged` chain backward.  The needle is an `Int`
because the JS loop counter may pass below zero before the loop exits.
The explicit `fuel` makes the recursion structural; each iteration
strictly decreases `needle + 1 - searchTill`, so a caller passing
`(needle + 1 - searchTill).toNat + 1` fuel never reaches the fuel-out
case (whose value is the loop's exit value anyway). -/
def minValidLoop (hl : HeadersList) (pk : String) (searchTill : Int) :
    Nat → Int → BlockHeader → Int
  | 0, needle, _ => max (needle + 1) searchTill
  | fuel + 1, needle, current =>
    if searchTill ≤ needle then
      if needle = (current.maxHeightPreviouslyForged : Int) then
        match hl.getAt needle.toNat with
        | none => 0
        | some prev =>
          if prev.delegatePublicKey ≠ pk ∨
              needle ≤ (prev.maxHeightPreviouslyForged : Int) then
            needle + 1
          else
            minValidLoop hl pk searchTill fuel
              (prev.maxHeightPreviouslyForged : Int) prev
      else
        minValidLoop hl pk searchTill fuel (needle - 1) current
    else
      max (needle + 1) searchTill

/-- `_getMinValidHeightToPreCommit(header)` from the source: needle starts
at `max(maxHeightPreviouslyForged, height − processingThreshold)` and the
search stops at `max(minHeight, height − processingThreshold)`. -/
def FinalityManager.getMinValidHeightToPreCommit (s : FinalityManager)
    (header : BlockHeader) : Int :=
  let searchTillHeight : Int :=
    max (s.headers.minHeight : Int)
      ((header.height : Int) - (s.processingThreshold : Int))
  let needleHeight : Int :=
    max (header.maxHeightPreviouslyForged : Int)
      ((header.height : Int) - (s.processingThreshold : Int))
  minValidLoop s.headers header.delegatePublicKey searchTillHeight
    ((needleHeight + 1 - searchTillHeight).toNat + 1) needleHeight header

/-- Modelled from the spec: the `minValidCommitHeight(h)` loop body of
§4.2.2 ("walking the `maxHeightPreviouslyForged` chain backward from `h`"):
while `needle ≥ searchTill`, follow `maxHeightPreviouslyForged` links,
returning 0 on a missing header, `needle + 1` on a foreign or inconsistent
previous header, and `max(needle + 1, searchTill)` at loop exit. -/
def specMinValidLoop (hl : HeadersList) (pk : String) (searchTill : Int) :
    Nat → Int → BlockHeader → Int
  | 0, needle, _ => max (needle + 1) searchTill
  | fuel + 1, needle, current =>
    if searchTill ≤ needle then
      if needle = (current.maxHeightPreviouslyForged : Int) then
        match hl.getAt needle.toNat with
        | none => 0
        | some prev =>
          if prev.delegatePublicKey ≠ pk ∨
              needle ≤ (prev.maxHeightPreviouslyForged : Int) then
            needle + 1
          else
            specMinValidLoop hl pk searchTill fuel
              (prev.maxHeightPreviouslyForged : Int) prev
      else
        specMinValidLoop hl pk searchTill fuel (needle - 1) current
    else
      max (needle + 1) searchTill

/-- Modelled from the spec: `minValidCommitHeight(h)` of §4.2.2 with
`needle = max(h.maxHeightPreviouslyForged, h.height − processingThreshold)`
and `searchTill = max(headerList.minHeight, h.height −
processingThreshold)`. -/
def specMinValidCommitHeight (hl : HeadersList) (processingThreshold : Nat)
    (h : BlockHeader) : Int :=
  let needle : Int :=
    max (h.maxHeightPreviouslyForged : Int)
      ((h.height : Int) - (processingThreshold : Int))
  let searchTill : Int :=
    max (hl.minHeight : Int)
      ((h.height : Int) - (processingThreshold : Int))
  specMinValidLoop hl h.delegatePublicKey searchTill
    ((needle + 1 - searchTill).toNat + 1) needle h

/-- The ascending height range `[lo, hi]` of the JS `for` loops. -/
def heightRange (lo hi : Nat) : List Nat :=
  List.range' lo (hi + 1 - lo)

/-- One iteration of the pre-commit loop: when the pre-vote tally at `j`
reaches the threshold, increment `preCommits[j]` and move the delegate's
`maxPreCommitHeight` to `j`.  The pre-vote tallies consulted are the ones
fixed before the loop (the loop itself never touches `preVotes`). -/
def commitStep (preVotes : VoteMap) (threshold : Nat) (acc : VoteMap × Nat)
    (j : Nat) : VoteMap × Nat :=
  if preVotes.meets threshold j then (acc.1.incr j, j) else acc

/-- `updatePreVotesPreCommits(header)`: no-op for an equivocating header
(`maxHeightPreviouslyForged >= height`); otherwise run the pre-commit loop
and then the pre-vote loop, and store the delegate's updated state.
(`header.height - s.processingThreshold` may be negative in JS, but it
only occurs under a `max` with `maxHeightPreviouslyForged + 1 ≥ 1`, so the
truncated Nat subtraction yields the same maximum.) -/
def FinalityManager.updatePreVotesPreCommits (s : FinalityManager)
    (header : BlockHeader) : FinalityManager :=
  if header.height ≤ header.maxHeightPreviouslyForged then s
  else
    let delegateState := (s.lookupState header.delegatePublicKey).getD ⟨0, 0⟩
    let minValidHeightToPreCommit :=
      (s.getMinValidHeightToPreCommit header).toNat
    let minPreCommitHeight :=
      max header.delegateMinHeightActive
        (max minValidHeightToPreCommit (delegateState.maxPreCommitHeight + 1))
    let maxPreCommitHeight := header.height - 1
    let commitResult :=
      (heightRange minPreCommitHeight maxPreCommitHeight).foldl
        (commitStep s.preVotes s.preVoteThreshold)
        (s.preCommits, delegateState.maxPreCommitHeight)
    let minPreVoteHeight :=
      max header.delegateMinHeightActive
        (max (header.maxHeightPreviouslyForged + 1)
          (max (delegateState.maxPreVoteHeight + 1)
            (header.height - s.processingThreshold)))
    let maxPreVoteHeight := header.height
    let preVotes :=
      (heightRange minPreVoteHeight maxPreVoteHeight).foldl
        VoteMap.incr s.preVotes
    { s with
      preCommits := commitResult.1
      preVotes := preVotes
      state := stateInsert s.state header.delegatePublicKey
        ⟨maxPreVoteHeight, commitResult.2⟩ }

/-- `updatePreVotedAndFinalizedHeight()`: no-op on an empty header list;
otherwise move `chainMaxHeightPrevoted` to the highest pre-voted height
reaching the threshold (unchanged when none) and `finalizedHeight` to the
highest pre-committed height reaching the threshold (unchanged when
none). -/
def FinalityManager.updatePreVotedAndFinalizedHeight (s : FinalityManager) :
    FinalityManager :=
  if s.headers.items.isEmpty then s
  else
    let s1 :=
      match VoteMap.findHighest s.preVotes s.preVoteThreshold with
      | some k => { s with chainMaxHeightPrevoted := k }
      | none => s
    match VoteMap.findHighest s.preCommits s.preCommitThreshold with
    | some k => { s1 with finalizedHeight := k }
    | none => s1

/-- `_cleanup()`: trim both tallies to their last `maxHeaders` keys. -/
def FinalityManager.cleanup (s : FinalityManager) : FinalityManager :=
  { s with
    preVotes := s.preVotes.trim s.maxHeaders
    preCommits := s.preCommits.trim s.maxHeaders }

/-- `_findLastBlockForgedByDelegate(pk)`: the topmost header among the last
`processingThreshold` forged by the same delegate. -/
def FinalityManager.findLastBlockForgedByDelegate (s : FinalityManager)
    (pk : String) : Option BlockHeader :=
  ((s.headers.top s.processingThreshold).reverse).find?
    (fun h => h.delegatePublicKey = pk)

/-- `verifyBlockHeaders(blockHeader)`: the `maxHeightPrevoted` consistency
check when the window is full, then the three cross-checks against the
delegate's previous block after ordering the pair by
`(maxHeightPreviouslyForged, maxHeightPrevoted, height)`. -/
def FinalityManager.verifyBlockHeaders (s : FinalityManager)
    (blockHeader : BlockHeader) : Except BftError Unit :=
  if s.processingThreshold ≤ s.headers.items.length ∧
      blockHeader.maxHeightPrevoted ≠ s.chainMaxHeightPrevoted then
    .error .invalidAttribute
  else
    match s.findLastBlockForgedByDelegate blockHeader.delegatePublicKey with
    | none => .ok ()
    | some delegateLastBlock =>
      let doSwap :=
        blockHeader.maxHeightPreviouslyForged <
            delegateLastBlock.maxHeightPreviouslyForged ∨
          (delegateLastBlock.maxHeightPreviouslyForged =
              blockHeader.maxHeightPreviouslyForged ∧
            blockHeader.maxHeightPrevoted <
              delegateLastBlock.maxHeightPrevoted) ∨
          (delegateLastBlock.maxHeightPreviouslyForged =
              blockHeader.maxHeightPreviouslyForged ∧
            delegateLastBlock.maxHeightPrevoted =
              blockHeader.maxHeightPrevoted ∧
            blockHeader.height < delegateLastBlock.height)
      let earlierBlock := if doSwap then blockHeader else delegateLastBlock
      let laterBlock := if doSwap then delegateLastBlock else blockHeader
      if earlierBlock.maxHeightPrevoted = laterBlock.maxHeightPrevoted ∧
          laterBlock.height ≤ earlierBlock.height then
        .error .forkChoiceRule
      else if laterBlock.maxHeightPreviouslyForged < earlierBlock.height then
        .error .chainDisjoint
      else if laterBlock.maxHeightPrevoted < earlierBlock.maxHeightPrevoted
          then
        .error .lowerChainBranch
      else
        .ok ()

/-- `addBlockHeader(blockHeader)`, run imperatively in source order: schema
validation (the validator itself is modelled from the spec as an abstract
predicate, its source `utils.js` not being among the sources), then
`verifyBlockHeaders`, and only then the four mutation steps.  The returned
state is the manager's state when the call finishes or throws. -/
def addBlockHeaderRun (validate : BlockHeader → Bool) (s : FinalityManager)
    (blockHeader : BlockHeader) : Except BftError Unit × FinalityManager :=
  if validate blockHeader = false then (.error .invalidHeaderSchema, s)
  else
    match s.verifyBlockHeaders blockHeader with
    | .error e => (.error e, s)
    | .ok () =>
      let s1 := { s with headers := s.headers.add blockHeader }
      let s2 := s1.updatePreVotesPreCommits blockHeader
      let s3 := s2.updatePreVotedAndFinalizedHeight
      (.ok (), s3.cleanup)

/-- `recompute()`: zero `state`, `chainMaxHeightPrevoted`, `preVotes` and
`preCommits` (but not `finalizedHeight`), replay `updatePreVotesPreCommits`
over the stored headers in ascending order, then re-derive the heights and
trim. -/
def FinalityManager.recompute (s : FinalityManager) : FinalityManager :=
  let s0 := { s with
    state := []
    chainMaxHeightPrevoted := 0
    preVotes := []
    preCommits := [] }
  let s1 := s0.headers.items.foldl FinalityManager.updatePreVotesPreCommits s0
  s1.updatePreVotedAndFinalizedHeight.cleanup

/-- `removeBlockHeaders({ aboveHeight })`: drop the headers above the given
height and recompute the finality data. -/
def FinalityManager.removeBlockHeaders (s : FinalityManager)
    (aboveHeight : Nat) : FinalityManager :=
  FinalityManager.recompute { s with headers := s.headers.remove aboveHeight }

end LiskSpec

namespace LiskSpec

/-- Modelled from the spec: `DEFAULT_WS_MAX_PAYLOAD` (the constants module
is not among the sources): "wsMaxPayload (bytes, default 1 MiB)". -/
def DEFAULT_WS_MAX_PAYLOAD : Nat := 1048576

/-- Modelled from the spec: `DEFAULT_MAX_PEER_INFO_SIZE`:
"maxPeerInfoSize (bytes, default 20 KiB)". -/
def DEFAULT_MAX_PEER_INFO_SIZE : Nat := 20480

/-- Modelled from the spec: `DEFAULT_MIN_PEER_DISCOVERY_THRESHOLD`
("minimumPeerDiscoveryThreshold (default 100)"). -/
def DEFAULT_MIN_PEER_DISCOVERY_THRESHOLD : Nat := 100

/-- Modelled from the spec: `DEFAULT_MAX_PEER_DISCOVERY_RESPONSE_LENGTH`
("maxPeerDiscoveryResponseLength (default 1000)"). -/
def DEFAULT_MAX_PEER_DISCOVERY_RESPONSE_LENGTH : Nat := 1000

/-- Externally visible peer attributes, kept abstract as key/value pairs. -/
abbrev SharedState := List (String × String)

/-- Whether a connection is inbound or outbound. -/
inductive ConnectionKind where
  | inbound
  | outbound
  deriving Repr, DecidableEq

/-- The parts of a peer's internal state the modelled handlers read. -/
structure PeerInternalState where
  advertiseAddress : Bool
  connectionKind : ConnectionKind
  deriving Repr, DecidableEq

/-- A peer record (`P2PPeerInfo`). -/
structure P2PPeerInfo where
  peerId : String
  ipAddress : String
  wsPort : Nat
  sharedState : SharedState
  internalState : Option PeerInternalState
  deriving Repr, DecidableEq

/-- The over-the-wire peer record (`ProtocolPeerInfo`): shared state plus
address, with the internal state stripped. -/
structure ProtocolPeerInfo where
  ipAddress : String
  wsPort : Nat
  sharedState : SharedState
  deriving Repr, DecidableEq

/-- `{ ipAddress, wsPort, ...sharedState }`. -/
def sanitizePeer (p : P2PPeerInfo) : ProtocolPeerInfo :=
  { ipAddress := p.ipAddress, wsPort := p.wsPort,
    sharedState := p.sharedState }

/-- The filter `!(peer.internalState && !peer.internalState
.advertiseAddress)`: drop a peer only when an internal state is present
and its `advertiseAddress` is `false`. -/
def advertiseOk (p : P2PPeerInfo) : Bool :=
  !(match p.internalState with
    | some st => !st.advertiseAddress
    | none => false)

/-- The JS idiom `config.x ? config.x : DEFAULT`: an absent or zero
(falsy) configured value falls back to the default. -/
def jsConfigOr (v : Option Nat) (d : Nat) : Nat :=
  match v with
  | some n => if n = 0 then d else n
  | none => d

/-- `list.slice(0, e)` for a possibly negative `e` (a negative end counts
from the end of the list). -/
def jsSlice {α : Type} (l : List α) (e : Int) : List α :=
  if e < 0 then l.take ((l.length : Int) + e).toNat else l.take e.toNat

/-- The size-related configuration read by `_handleGetPeersRequest`. -/
structure DiscoveryConfig where
  wsMaxPayload : Option Nat
  maxPeerInfoSize : Option Nat
  minimumPeerDiscoveryThreshold : Option Nat
  peerDiscoveryResponseLength : Option Nat
  deriving Repr, DecidableEq

/-- `_handleGetPeersRequest`: the sampled list (`getRandomizedPeerList`,
whose randomness is abstracted by taking the sample as the
`selectedPeers` argument) is sanitized, and returned whole when its
serialized size (`getByteSize`, modelled from the spec as an abstract
size function, its source not being among the sources) is below the
configured `wsMaxPayload`; otherwise it is cut by
`slice(0, Math.floor(DEFAULT_WS_MAX_PAYLOAD / maxPeerInfoSize) - 1)` —
note the numerator is the default, not the configured, payload bound. -/
def handleGetPeersRequest (byteSize : List ProtocolPeerInfo → Nat)
    (cfg : DiscoveryConfig) (selectedPeers : List P2PPeerInfo) :
    List ProtocolPeerInfo :=
  let wsMaxPayload := jsConfigOr cfg.wsMaxPayload DEFAULT_WS_MAX_PAYLOAD
  let maxPeerInfoSize :=
    jsConfigOr cfg.maxPeerInfoSize DEFAULT_MAX_PEER_INFO_SIZE
  let safeMaxPeerInfoLength : Int :=
    (DEFAULT_WS_MAX_PAYLOAD / maxPeerInfoSize : Nat) - 1
  let sanitizedPeerInfoList :=
    (selectedPeers.filter advertiseOk).map sanitizePeer
  if byteSize sanitizedPeerInfoList < wsMaxPayload then
    sanitizedPeerInfoList
  else
    jsSlice sanitizedPeerInfoList safeMaxPeerInfoLength

/-- An inbound socket as seen by the `connection` handler: `socket.id`
(used both as the pool-lookup key and as the recorded `ipAddress`) and
`socket.info` fields. -/
structure ServerSocket where
  id : String
  infoId : String
  wsPort : Nat
  protocolVersion : String
  advertiseAddress : Bool
  deriving Repr, DecidableEq

/-- The `incomingPeerInfo` record built by the `connection` handler. -/
def mkIncomingPeerInfo (socket : ServerSocket) : P2PPeerInfo :=
  { peerId := socket.infoId
    ipAddress := socket.id
    wsPort := socket.wsPort
    sharedState := [("protocolVersion", socket.protocolVersion)]
    internalState := some
      { advertiseAddress := socket.advertiseAddress
        connectionKind := .inbound } }

/-- The address book reduced to table membership (peer ids per table). -/
structure PeerBook where
  newPeerIds : List String
  triedPeerIds : List String
  deriving Repr, DecidableEq

/-- A peer id is in the book when either table holds it. -/
def PeerBook.has (b : PeerBook) (pid : String) : Bool :=
  b.newPeerIds.contains pid || b.triedPeerIds.contains pid

/-- Modelled from the spec: `addPeer` places the peer in the new table and
fails with `ExistingPeer` when it is already present in either table
(§4.3.2); the callers modelled here catch exactly that error, so the
tolerated call is a no-op on an existing peer. -/
def PeerBook.addPeerTolerant (b : PeerBook) (pid : String) : PeerBook :=
  if b.has pid then b
  else { b with newPeerIds := b.newPeerIds ++ [pid] }

/-- Events emitted by the modelled handlers. -/
inductive P2PEvent where
  | failedToAddInboundPeer
  | newInboundPeer (info : P2PPeerInfo)
  deriving Repr, DecidableEq

/-- The node state the modelled `P2P` methods touch: the activity flags,
the banned-IP set, the live peer pool (modelled from the spec as a map
from peer id to peer, the `PeerPool` source not being among the sources)
and the address book. -/
structure P2PNodeState where
  isActive : Bool
  hasConnected : Bool
  populatorRunning : Bool
  bannedIPs : List String
  whitelistedIds : List String
  pool : List (String × P2PPeerInfo)
  book : PeerBook
  deriving Repr, DecidableEq

/-- `peerPool.getPeer(id)`. -/
def poolGet (pool : List (String × P2PPeerInfo)) (pid : String) :
    Option P2PPeerInfo :=
  (pool.find? (fun kv => kv.1 = pid)).map (fun kv => kv.2)

/-- The `connection` handler of `_startPeerServer`: when the pool already
holds a peer under `socket.id` the socket is disconnected with the
`DUPLICATE_CONNECTION` status and `FailedToAddInboundPeer` is emitted;
otherwise the peer joins the inbound pool and `NewInboundPeer` is
emitted.  In both branches the peer is then added to the address book,
tolerating `ExistingPeer`.  No banned-IP check occurs here. -/
def handleInboundConnection (s : P2PNodeState) (socket : ServerSocket) :
    P2PNodeState × List P2PEvent :=
  let incomingPeerInfo := mkIncomingPeerInfo socket
  match poolGet s.pool socket.id with
  | some _ =>
    ({ s with book := s.book.addPeerTolerant incomingPeerInfo.peerId },
      [.failedToAddInboundPeer])
  | none =>
    let s1 := { s with
      pool := s.pool ++ [(incomingPeerInfo.peerId, incomingPeerInfo)] }
    ({ s1 with book := s1.book.addPeerTolerant incomingPeerInfo.peerId },
      [.newInboundPeer incomingPeerInfo])

/-- `P2P.start()`: throws when already active; otherwise the peer server
is started (setting the active flag once ready) and the populator is
started (which itself throws when already running).  Network effects
(seed discovery, socket I/O) are outside the model. -/
def P2PStart (s : P2PNodeState) : Except String Unit × P2PNodeState :=
  if s.isActive then
    (.error "Node cannot start because it is already active.", s)
  else
    let s1 := { s with isActive := true }
    if s1.populatorRunning then
      (.error "Populator is already running", s1)
    else
      (.ok (), { s1 with populatorRunning := true })

/-- `P2P.stop()`: throws when not active; otherwise clears the activity
flags, stops the populator, removes every pooled peer and closes the
server. -/
def P2PStop (s : P2PNodeState) : Except String Unit × P2PNodeState :=
  if !s.isActive then
    (.error "Node cannot be stopped because it is not active.", s)
  else
    (.ok (), { s with
      isActive := false
      hasConnected := false
      populatorRunning := false
      pool := [] })

end LiskSpec

namespace LiskSpec

/-! ### Basic lemmas about the FinalityManager steps -/

theorem cleanup_headers (s : FinalityManager) : s.cleanup.headers = s.headers :=
  rfl

theorem cleanup_finalizedHeight (s : FinalityManager) :
    s.cleanup.finalizedHeight = s.finalizedHeight :=
  rfl

theorem cleanup_chainMax (s : FinalityManager) :
    s.cleanup.chainMaxHeightPrevoted = s.chainMaxHeightPrevoted :=
  rfl

theorem updatePreVoted_headers (s : FinalityManager) :
    s.updatePreVotedAndFinalizedHeight.headers = s.headers := by
  unfold FinalityManager.updatePreVotedAndFinalizedHeight
  split
  · rfl
  · split <;> split <;> rfl

theorem updatePreVoted_preVotes (s : FinalityManager) :
    s.updatePreVotedAndFinalizedHeight.preVotes = s.preVotes := by
  unfold FinalityManager.updatePreVotedAndFinalizedHeight
  split
  · rfl
  · split <;> split <;> rfl

theorem updatePreVoted_preCommits (s : FinalityManager) :
    s.updatePreVotedAndFinalizedHeight.preCommits = s.preCommits := by
  unfold FinalityManager.updatePreVotedAndFinalizedHeight
  split
  · rfl
  · split <;> split <;> rfl

theorem updatePreVotesPreCommits_headers (s : FinalityManager)
    (h : BlockHeader) :
    (s.updatePreVotesPreCommits h).headers = s.headers := by
  unfold FinalityManager.updatePreVotesPreCommits
  split <;> rfl

theorem updatePreVotesPreCommits_finalizedHeight (s : FinalityManager)
    (h : BlockHeader) :
    (s.updatePreVotesPreCommits h).finalizedHeight = s.finalizedHeight := by
  unfold FinalityManager.updatePreVotesPreCommits
  split <;> rfl

theorem updatePreVotesPreCommits_chainMax (s : FinalityManager)
    (h : BlockHeader) :
    (s.updatePreVotesPreCommits h).chainMaxHeightPrevoted =
      s.chainMaxHeightPrevoted := by
  unfold FinalityManager.updatePreVotesPreCommits
  split <;> rfl

theorem updatePreVotesPreCommits_equivocating (s : FinalityManager)
    (h : BlockHeader) (heq : h.height ≤ h.maxHeightPreviouslyForged) :
    s.updatePreVotesPreCommits h = s := by
  unfold FinalityManager.updatePreVotesPreCommits
  exact if_pos heq

end LiskSpec

namespace LiskSpec

/-- C2: if `addBlockHeader(h)` raises any error (`InvalidHeaderSchema`
from schema validation, or `InvalidAttribute` / `ForkChoiceViolation` /
`ChainDisjoint` / `LowerChainBranch` from `verifyBlockHeaders`), the
FinalityManager state is exactly what it was before the call: both checks
run before any mutation step, so the call is atomic. -/
theorem addBlockHeader_error_atomic (validate : BlockHeader → Bool)
    (s : FinalityManager) (h : BlockHeader) (e : BftError)
    (s' : FinalityManager)
    (herr : addBlockHeaderRun validate s h = (.error e, s')) : s' = s := by
  unfold addBlockHeaderRun at herr
  by_cases hv : validate h = false
  · rw [if_pos hv] at herr
    exact (Prod.mk.injEq _ _ _ _ ▸ herr).2.symm
  · rw [if_neg hv] at herr
    cases hver : s.verifyBlockHeaders h with
    | error e2 =>
      rw [hver] at herr
      exact (Prod.mk.injEq _ _ _ _ ▸ herr).2.symm
    | ok u =>
      cases u
      rw [hver] at herr
      exact absurd (Prod.mk.injEq _ _ _ _ ▸ herr).1 (by simp)

/-- C2 witness: a concrete failing call (schema validation rejects the
header) leaves the state untouched. -/
theorem addBlockHeader_error_atomic_witness :
    (addBlockHeaderRun (fun _ => false) (FinalityManager.init 7 3)
        ⟨1, "a", 0, 0, 1⟩).2 = FinalityManager.init 7 3 :=
  addBlockHeader_error_atomic (fun _ => false) (FinalityManager.init 7 3)
    ⟨1, "a", 0, 0, 1⟩ .invalidHeaderSchema _ (by rfl)

/-- C3: a header with `maxHeightPreviouslyForged ≥ height` that passes
schema validation and `verifyBlockHeaders` is appended to the header
list, but the vote-accounting step attributes no pre-votes and no
pre-commits for it: `updatePreVotesPreCommits` leaves `preVotes`,
`preCommits` and the per-delegate state (indeed the whole manager state)
unchanged. -/
theorem equivocating_header_no_votes (validate : BlockHeader → Bool)
    (s : FinalityManager) (h : BlockHeader)
    (hequiv : h.height ≤ h.maxHeightPreviouslyForged)
    (hv : validate h = true) (hver : s.verifyBlockHeaders h = .ok ()) :
    s.updatePreVotesPreCommits h = s ∧
    (addBlockHeaderRun validate s h).1 = .ok () ∧
    (addBlockHeaderRun validate s h).2.headers = s.headers.add h := by
  refine ⟨updatePreVotesPreCommits_equivocating s h hequiv, ?_, ?_⟩
  · unfold addBlockHeaderRun
    rw [if_neg (by simp [hv]), hver]
  · unfold addBlockHeaderRun
    rw [if_neg (by simp [hv]), hver]
    simp [cleanup_headers, updatePreVoted_headers,
      updatePreVotesPreCommits_headers]

/-- C3 witness: delegate "a" forges at height 1 claiming
`maxHeightPreviouslyForged = 5`; the header is appended but contributes
no votes. -/
theorem equivocating_header_no_votes_witness :
    (FinalityManager.init 0 1).updatePreVotesPreCommits ⟨1, "a", 5, 0, 1⟩ =
      FinalityManager.init 0 1 ∧
    (addBlockHeaderRun (fun _ => true) (FinalityManager.init 0 1)
        ⟨1, "a", 5, 0, 1⟩).1 = .ok () ∧
    (addBlockHeaderRun (fun _ => true) (FinalityManager.init 0 1)
        ⟨1, "a", 5, 0, 1⟩).2.headers =
      (FinalityManager.init 0 1).headers.add ⟨1, "a", 5, 0, 1⟩ :=
  equivocating_header_no_votes (fun _ => true) (FinalityManager.init 0 1)
    ⟨1, "a", 5, 0, 1⟩ (by decide) (by rfl) (by rfl)

/-- C10: `P2P.start()` throws whenever the node is already active and
`P2P.stop()` throws whenever it is not active; in both cases the activity
flag and the peer state are returned unchanged. -/
theorem start_stop_guard (s : P2PNodeState) :
    (s.isActive = true →
      P2PStart s =
        (.error "Node cannot start because it is already active.", s)) ∧
    (s.isActive = false →
      P2PStop s =
        (.error "Node cannot be stopped because it is not active.", s)) := by
  constructor
  · intro hA
    unfold P2PStart
    rw [if_pos hA]
  · intro hA
    unfold P2PStop
    rw [if_pos (by simp [hA])]

/-- C10 witness: a concrete already-active node rejects `start()` and a
concrete inactive node rejects `stop()`, each leaving the state as it
was. -/
theorem start_stop_guard_witness :
    P2PStart
        { isActive := true, hasConnected := true, populatorRunning := true,
          bannedIPs := [], whitelistedIds := [], pool := [],
          book := ⟨[], []⟩ } =
      (.error "Node cannot start because it is already active.",
        { isActive := true, hasConnected := true, populatorRunning := true,
          bannedIPs := [], whitelistedIds := [], pool := [],
          book := ⟨[], []⟩ }) ∧
    P2PStop
        { isActive := false, hasConnected := false,
          populatorRunning := false, bannedIPs := [], whitelistedIds := [],
          pool := [], book := ⟨[], []⟩ } =
      (.error "Node cannot be stopped because it is not active.",
        { isActive := false, hasConnected := false,
          populatorRunning := false, bannedIPs := [], whitelistedIds := [],
          pool := [], book := ⟨[], []⟩ }) :=
  ⟨(start_stop_guard _).1 (by rfl), (start_stop_guard _).2 (by rfl)⟩

end LiskSpec

namespace LiskSpec

/-- The source loop and the specification loop compute the same value at
every fuel. -/
theorem minValidLoop_eq_spec (hl : HeadersList) (pk : String)
    (searchTill : Int) :
    ∀ (fuel : Nat) (needle : Int) (current : BlockHeader),
      minValidLoop hl pk searchTill fuel needle current =
        specMinValidLoop hl pk searchTill fuel needle current := by
  intro fuel
  induction fuel with
  | zero => intro needle current; rfl
  | succ n ih =>
    intro needle current
    simp only [minValidLoop, specMinValidLoop]
    by_cases h1 : searchTill ≤ needle
    · rw [if_pos h1, if_pos h1]
      by_cases h2 : needle = (current.maxHeightPreviouslyForged : Int)
      · rw [if_pos h2, if_pos h2]
        cases hget : hl.getAt needle.toNat with
        | none => rfl
        | some prev =>
          dsimp only
          by_cases h3 : prev.delegatePublicKey ≠ pk ∨
              needle ≤ (prev.maxHeightPreviouslyForged : Int)
          · rw [if_pos h3, if_pos h3]
          · rw [if_neg h3, if_neg h3]
            exact ih _ _
      · rw [if_neg h2, if_neg h2]
        exact ih _ _
    · rw [if_neg h1, if_neg h1]

/-- Shared form of C4, also used to relate the spec-level and source-level
vote accounting. -/
theorem getMinValid_eq_specMinValid (s : FinalityManager) (h : BlockHeader) :
    s.getMinValidHeightToPreCommit h =
      specMinValidCommitHeight s.headers s.processingThreshold h := by
  unfold FinalityManager.getMinValidHeightToPreCommit
    specMinValidCommitHeight
  exact minValidLoop_eq_spec _ _ _ _ _ _

/-- C4: `_getMinValidHeightToPreCommit(h)` computes exactly the spec's
`minValidCommitHeight(h)` loop: starting from
`needle = max(h.maxHeightPreviouslyForged, h.height − processingThreshold)`
and `searchTill = max(headerList.minHeight, h.height −
processingThreshold)`, it walks the `maxHeightPreviouslyForged` chain
backward, returning 0 when a referenced previous header is absent,
`needle + 1` when that header was forged by a different delegate or has
`maxHeightPreviouslyForged ≥ needle`, and `max(needle + 1, searchTill)`
when the loop ends. -/
theorem getMinValidHeightToPreCommit_matches_spec (s : FinalityManager)
    (h : BlockHeader) :
    s.getMinValidHeightToPreCommit h =
      specMinValidCommitHeight s.headers s.processingThreshold h :=
  getMinValid_eq_specMinValid s h

end LiskSpec

namespace LiskSpec

/-- Modelled from the spec (§4.2.2): the vote/commit accounting contract.
With `s = state[h.delegatePublicKey]` (initialized `{0, 0}`), first add a
pre-commit for each `j` in `[max(h.delegateMinHeightActive,
minValidCommitHeight(h), s.maxPreCommit + 1), h.height − 1]` exactly when
`preVotes[j] ≥ preVoteThreshold` (moving `s.maxPreCommit` to `j`), the
tallies consulted being the ones in place before this header's own
pre-votes; only afterwards add one pre-vote for each `j` in
`[max(h.delegateMinHeightActive, h.maxHeightPreviouslyForged + 1,
s.maxPreVote + 1, h.height − processingThreshold), h.height]` and set
`s.maxPreVote = h.height`.  Nothing happens for an equivocating header. -/
def specVoteAccounting (s : FinalityManager) (h : BlockHeader) :
    FinalityManager :=
  if h.maxHeightPreviouslyForged ≥ h.height then s
  else
    let d := (s.lookupState h.delegatePublicKey).getD ⟨0, 0⟩
    let minCommit :=
      max h.delegateMinHeightActive
        (max (specMinValidCommitHeight s.headers s.processingThreshold
            h).toNat
          (d.maxPreCommitHeight + 1))
    let commitResult :=
      (heightRange minCommit (h.height - 1)).foldl
        (commitStep s.preVotes s.preVoteThreshold)
        (s.preCommits, d.maxPreCommitHeight)
    let minVote :=
      max h.delegateMinHeightActive
        (max (h.maxHeightPreviouslyForged + 1)
          (max (d.maxPreVoteHeight + 1) (h.height - s.processingThreshold)))
    let newPreVotes :=
      (heightRange minVote h.height).foldl VoteMap.incr s.preVotes
    { s with
      preCommits := commitResult.1
      preVotes := newPreVotes
      state := stateInsert s.state h.delegatePublicKey
        ⟨h.height, commitResult.2⟩ }

/-- C5: for every non-equivocating header, the source's
`updatePreVotesPreCommits` implements exactly the spec's accounting
contract: pre-commits first (evaluated against the pre-vote tallies as
they stand before this header's own pre-votes are added, over
`[max(delegateMinHeightActive, minValidCommitHeight, maxPreCommit + 1),
height − 1]` gated by the pre-vote threshold), then one pre-vote per
height in `[max(delegateMinHeightActive, maxHeightPreviouslyForged + 1,
maxPreVote + 1, height − processingThreshold), height]`, with
`maxPreVote` set to the header's height. -/
theorem updatePreVotesPreCommits_matches_spec (s : FinalityManager)
    (h : BlockHeader) (hne : h.maxHeightPreviouslyForged < h.height) :
    s.updatePreVotesPreCommits h = specVoteAccounting s h := by
  unfold FinalityManager.updatePreVotesPreCommits specVoteAccounting
  rw [if_neg (by omega), if_neg (by omega)]
  simp only [getMinValid_eq_specMinValid]

/-- C5 witness: the first header of delegate "a" at height 1. -/
theorem updatePreVotesPreCommits_matches_spec_witness :
    (FinalityManager.init 0 1).updatePreVotesPreCommits ⟨1, "a", 0, 0, 1⟩ =
      specVoteAccounting (FinalityManager.init 0 1) ⟨1, "a", 0, 0, 1⟩ :=
  updatePreVotesPreCommits_matches_spec (FinalityManager.init 0 1)
    ⟨1, "a", 0, 0, 1⟩ (by decide)

end LiskSpec


namespace LiskSpec

/-- Keys of a vote map in strictly ascending order — the well-formedness
that the `Object.keys` ordering rests on; `VoteMap.incr` preserves it. -/
abbrev VoteMap.sortedKeys (m : VoteMap) : Prop :=
  List.Pairwise (fun a b => a.1 < b.1) m

theorem VoteMap.get_nil (j : Nat) : VoteMap.get [] j = none := rfl

theorem VoteMap.get_cons (k v : Nat) (rest : VoteMap) (j : Nat) :
    VoteMap.get ((k, v) :: rest) j =
      if k = j then some v else rest.get j := by
  unfold VoteMap.get
  by_cases hkj : k = j
  · rw [List.find?_cons_of_pos _ (by simp [hkj]), if_pos hkj]
    rfl
  · rw [List.find?_cons_of_neg _ (by simp [hkj]), if_neg hkj]

theorem VoteMap.get_none_of_lt {m : VoteMap} {j : Nat}
    (hlt : ∀ kv ∈ m, j < kv.1) : m.get j = none := by
  induction m with
  | nil => rfl
  | cons a rest ih =>
    obtain ⟨k, v⟩ := a
    have h1 : j < k := hlt (k, v) (List.mem_cons_self _ _)
    rw [VoteMap.get_cons, if_neg (by omega)]
    exact ih (fun kv hkv => hlt kv (List.mem_cons_of_mem _ hkv))

theorem VoteMap.get_incr_other {m : VoteMap} {i j : Nat} (hne : j ≠ i) :
    (m.incr i).get j = m.get j := by
  induction m with
  | nil =>
    show VoteMap.get [(i, 1)] j = VoteMap.get [] j
    rw [VoteMap.get_cons, if_neg (Ne.symm hne), VoteMap.get_nil]
  | cons a rest ih =>
    obtain ⟨k, v⟩ := a
    unfold VoteMap.incr
    by_cases hik : i < k
    · rw [if_pos hik, VoteMap.get_cons i 1 _ j, if_neg (Ne.symm hne)]
    · rw [if_neg hik]
      by_cases hek : i = k
      · subst hek
        rw [if_pos rfl, VoteMap.get_cons, VoteMap.get_cons,
          if_neg (Ne.symm hne), if_neg (Ne.symm hne)]
      · rw [if_neg hek, VoteMap.get_cons, VoteMap.get_cons]
        by_cases hkj : k = j
        · rw [if_pos hkj, if_pos hkj]
        · rw [if_neg hkj, if_neg hkj]
          exact ih

theorem VoteMap.get_incr_self {m : VoteMap} (hs : m.sortedKeys) (i : Nat) :
    (m.incr i).get i = some ((m.get i).getD 0 + 1) := by
  induction m with
  | nil =>
    show VoteMap.get [(i, 1)] i = _
    rw [VoteMap.get_cons, if_pos rfl, VoteMap.get_nil]
    rfl
  | cons a rest ih =>
    obtain ⟨k, v⟩ := a
    obtain ⟨hk, hrest⟩ := List.pairwise_cons.mp hs
    unfold VoteMap.incr
    by_cases hik : i < k
    · rw [if_pos hik, VoteMap.get_cons i 1 _ i, if_pos rfl]
      have hnone : VoteMap.get ((k, v) :: rest) i = none := by
        apply VoteMap.get_none_of_lt
        intro kv hkv
        rcases List.mem_cons.mp hkv with rfl | hmem
        · exact hik
        · exact lt_trans hik (hk kv hmem)
      rw [hnone]
      rfl
    · rw [if_neg hik]
      by_cases hek : i = k
      · subst hek
        rw [if_pos rfl, VoteMap.get_cons, VoteMap.get_cons,
          if_pos rfl, if_pos rfl]
        rfl
      · rw [if_neg hek, VoteMap.get_cons, VoteMap.get_cons,
          if_neg (fun h => hek h.symm), if_neg (fun h => hek h.symm)]
        exact ih hrest

theorem VoteMap.meets_incr {m : VoteMap} (hs : m.sortedKeys) {t j : Nat}
    (i : Nat) (h : m.meets t j = true) : (m.incr i).meets t j = true := by
  unfold VoteMap.meets at h ⊢
  by_cases hji : j = i
  · subst hji
    rw [VoteMap.get_incr_self hs j]
    cases hg : m.get j with
    | none => rw [hg] at h; exact absurd h (by simp)
    | some v =>
      rw [hg] at h
      simp only [Option.getD]
      simp only [decide_eq_true_eq] at h ⊢
      omega
  · rw [VoteMap.get_incr_other hji]
    exact h

theorem VoteMap.mem_incr {m : VoteMap} {i : Nat} :
    ∀ kv ∈ m.incr i, kv.1 = i ∨ kv ∈ m := by
  induction m with
  | nil =>
    intro kv hkv
    unfold VoteMap.incr at hkv
    rcases List.mem_singleton.mp hkv with rfl
    exact Or.inl rfl
  | cons a rest ih =>
    obtain ⟨k, v⟩ := a
    intro kv hkv
    unfold VoteMap.incr at hkv
    by_cases hik : i < k
    · rw [if_pos hik] at hkv
      rcases List.mem_cons.mp hkv with rfl | hmem
      · exact Or.inl rfl
      · exact Or.inr hmem
    · rw [if_neg hik] at hkv
      by_cases hek : i = k
      · rw [if_pos hek] at hkv
        rcases List.mem_cons.mp hkv with rfl | hmem
        · exact Or.inl hek.symm
        · exact Or.inr (List.mem_cons_of_mem _ hmem)
      · rw [if_neg hek] at hkv
        rcases List.mem_cons.mp hkv with rfl | hmem
        · exact Or.inr (List.mem_cons_self _ _)
        · rcases ih kv hmem with h1 | h2
          · exact Or.inl h1
          · exact Or.inr (List.mem_cons_of_mem _ h2)

theorem VoteMap.sorted_incr {m : VoteMap} (hs : m.sortedKeys) (i : Nat) :
    (m.incr i).sortedKeys := by
  induction m with
  | nil => simp [VoteMap.incr, VoteMap.sortedKeys]
  | cons a rest ih =>
    obtain ⟨k, v⟩ := a
    obtain ⟨hk, hrest⟩ := List.pairwise_cons.mp hs
    unfold VoteMap.incr
    by_cases hik : i < k
    · rw [if_pos hik]
      refine List.Pairwise.cons ?_ (List.Pairwise.cons hk hrest)
      intro kv hkv
      rcases List.mem_cons.mp hkv with rfl | hmem
      · exact hik
      · exact lt_trans hik (hk kv hmem)
    · rw [if_neg hik]
      by_cases hek : i = k
      · subst hek
        rw [if_pos rfl]
        exact List.Pairwise.cons hk hrest
      · rw [if_neg hek]
        refine List.Pairwise.cons ?_ (ih hrest)
        intro kv hkv
        rcases VoteMap.mem_incr kv hkv with h1 | h2
        · rw [h1]; omega
        · exact hk kv h2

end LiskSpec

namespace LiskSpec

theorem VoteMap.get_mem {m : VoteMap} {j v : Nat} (h : m.get j = some v) :
    (j, v) ∈ m := by
  unfold VoteMap.get at h
  cases hf : m.find? (fun kv => kv.1 = j) with
  | none => rw [hf] at h; exact absurd h (by simp)
  | some kv0 =>
    rw [hf] at h
    obtain ⟨a, b⟩ := kv0
    have h1 : a = j := by simpa using List.find?_some hf
    have h2 : (a, b) ∈ m := List.mem_of_find?_eq_some hf
    have h3 : b = v := by simpa using h
    rw [← h1, ← h3]
    exact h2

theorem findFirst_ge_of_desc (t : Nat) :
    ∀ (l : List (Nat × Nat)), List.Pairwise (fun a b => b.1 < a.1) l →
      ∀ kv ∈ l, t ≤ kv.2 →
        ∃ k, (l.find? (fun x => t ≤ x.2)).map (fun x => x.1) = some k ∧
          kv.1 ≤ k := by
  intro l
  induction l with
  | nil => intro _ kv hkv; exact absurd hkv (List.not_mem_nil kv)
  | cons a rest ih =>
    intro hp kv hkv hle
    obtain ⟨ha, hrest⟩ := List.pairwise_cons.mp hp
    by_cases hat : t ≤ a.2
    · refine ⟨a.1, ?_, ?_⟩
      · rw [List.find?_cons_of_pos _ (by simp [hat])]
        rfl
      · rcases List.mem_cons.mp hkv with rfl | hmem
        · exact le_refl _
        · exact le_of_lt (ha kv hmem)
    · rcases List.mem_cons.mp hkv with rfl | hmem
      · exact absurd hle hat
      · obtain ⟨k, hk1, hk2⟩ := ih hrest kv hmem hle
        refine ⟨k, ?_, hk2⟩
        rw [List.find?_cons_of_neg _ (by simp [hat])]
        exact hk1

theorem VoteMap.findHighest_ge {m : VoteMap} (hs : m.sortedKeys)
    {t j : Nat} (h : m.meets t j = true) :
    ∃ k, m.findHighest t = some k ∧ j ≤ k := by
  unfold VoteMap.meets at h
  cases hg : m.get j with
  | none => rw [hg] at h; exact absurd h (by simp)
  | some v =>
    rw [hg] at h
    have hmem : (j, v) ∈ m.reverse := List.mem_reverse.mpr (get_mem hg)
    have hrev : List.Pairwise (fun a b => b.1 < a.1) m.reverse :=
      List.pairwise_reverse.mpr hs
    obtain ⟨k, hk1, hk2⟩ :=
      findFirst_ge_of_desc t m.reverse hrev (j, v) hmem (by simpa using h)
    exact ⟨k, hk1, hk2⟩

theorem commitStep_pos (pv : VoteMap) (t : Nat) (acc : VoteMap × Nat)
    (a : Nat) (h : pv.meets t a = true) :
    commitStep pv t acc a = (acc.1.incr a, a) := by
  unfold commitStep
  rw [if_pos h]

theorem commitStep_neg (pv : VoteMap) (t : Nat) (acc : VoteMap × Nat)
    (a : Nat) (h : pv.meets t a = false) :
    commitStep pv t acc a = acc := by
  unfold commitStep
  rw [if_neg (by simp [h])]

theorem commitFold_sorted (pv : VoteMap) (t : Nat) :
    ∀ (L : List Nat) (m : VoteMap) (c : Nat), m.sortedKeys →
      ((L.foldl (commitStep pv t) (m, c)).1).sortedKeys := by
  intro L
  induction L with
  | nil => intro m c hs; exact hs
  | cons a rest ih =>
    intro m c hs
    rw [List.foldl_cons]
    cases hm : pv.meets t a with
    | true =>
      rw [commitStep_pos pv t (m, c) a hm]
      exact ih _ _ (VoteMap.sorted_incr hs a)
    | false =>
      rw [commitStep_neg pv t (m, c) a hm]
      exact ih _ _ hs

theorem commitFold_meets (pv : VoteMap) (t : Nat) {T j : Nat} :
    ∀ (L : List Nat) (m : VoteMap) (c : Nat), m.sortedKeys →
      m.meets T j = true →
      ((L.foldl (commitStep pv t) (m, c)).1).meets T j = true := by
  intro L
  induction L with
  | nil => intro m c _ hj; exact hj
  | cons a rest ih =>
    intro m c hs hj
    rw [List.foldl_cons]
    cases hm : pv.meets t a with
    | true =>
      rw [commitStep_pos pv t (m, c) a hm]
      exact ih _ _ (VoteMap.sorted_incr hs a) (VoteMap.meets_incr hs a hj)
    | false =>
      rw [commitStep_neg pv t (m, c) a hm]
      exact ih _ _ hs hj

theorem updatePreVotesPreCommits_preCommitThreshold (s : FinalityManager)
    (h : BlockHeader) :
    (s.updatePreVotesPreCommits h).preCommitThreshold =
      s.preCommitThreshold := by
  unfold FinalityManager.updatePreVotesPreCommits
  split <;> rfl

theorem updatePreVotesPreCommits_preCommits_mono (s : FinalityManager)
    (h : BlockHeader) (hs : s.preCommits.sortedKeys) :
    ((s.updatePreVotesPreCommits h).preCommits).sortedKeys ∧
    ∀ T j, s.preCommits.meets T j = true →
      ((s.updatePreVotesPreCommits h).preCommits).meets T j = true := by
  unfold FinalityManager.updatePreVotesPreCommits
  by_cases hequiv : h.height ≤ h.maxHeightPreviouslyForged
  · rw [if_pos hequiv]
    exact ⟨hs, fun T j hj => hj⟩
  · rw [if_neg hequiv]
    refine ⟨commitFold_sorted _ _ _ _ _ hs, ?_⟩
    intro T j hj
    exact commitFold_meets _ _ _ _ _ hs hj

theorem updatePreVoted_finalized_ge (s : FinalityManager)
    (hs : s.preCommits.sortedKeys)
    (hF : s.finalizedHeight = 0 ∨ ∃ j, s.finalizedHeight ≤ j ∧
      s.preCommits.meets s.preCommitThreshold j = true) :
    s.finalizedHeight ≤ s.updatePreVotedAndFinalizedHeight.finalizedHeight
    := by
  unfold FinalityManager.updatePreVotedAndFinalizedHeight
  by_cases hemp : s.headers.items.isEmpty = true
  · rw [if_pos hemp]
  · rw [if_neg hemp]
    cases hfc : VoteMap.findHighest s.preCommits s.preCommitThreshold with
    | some k =>
      show s.finalizedHeight ≤ k
      rcases hF with h0 | ⟨j, hj, hm⟩
      · exact le_trans (le_of_eq h0) (Nat.zero_le k)
      · obtain ⟨k2, hk1, hk2⟩ := VoteMap.findHighest_ge hs hm
        rw [hfc] at hk1
        injection hk1 with hkk
        omega
    | none =>
      cases hpv : VoteMap.findHighest s.preVotes s.preVoteThreshold with
      | some k2 => exact le_refl _
      | none => exact le_refl _

/-- C1 amended: within a single successful or failing `addBlockHeader`
call, `finalizedHeight` does not decrease provided it is currently 0 or
some height at least `finalizedHeight` already holds a pre-commit tally
reaching `preCommitThreshold` (with the tallies keyed in ascending
order, as JS object keys are).  The unconditional claim fails when the
manager is constructed with an initial `finalizedHeight` above every
pre-committed height, because `updatePreVotedAndFinalizedHeight`
overwrites `finalizedHeight` with the highest pre-committed height
without comparing it to the previous value. -/
theorem addBlockHeader_finalized_monotone (v : BlockHeader → Bool)
    (s : FinalityManager) (h : BlockHeader)
    (hs : s.preCommits.sortedKeys)
    (hF : s.finalizedHeight = 0 ∨ ∃ j, s.finalizedHeight ≤ j ∧
      s.preCommits.meets s.preCommitThreshold j = true) :
    s.finalizedHeight ≤ (addBlockHeaderRun v s h).2.finalizedHeight := by
  unfold addBlockHeaderRun
  by_cases hv : v h = false
  · rw [if_pos hv]
  · rw [if_neg hv]
    cases hver : s.verifyBlockHeaders h with
    | error e => exact le_refl _
    | ok u =>
      cases u
      dsimp only
      rw [cleanup_finalizedHeight]
      have hmono := updatePreVotesPreCommits_preCommits_mono
        { s with headers := s.headers.add h } h hs
      have hfin2 := updatePreVotesPreCommits_finalizedHeight
        { s with headers := s.headers.add h } h
      have hthr2 := updatePreVotesPreCommits_preCommitThreshold
        { s with headers := s.headers.add h } h
      have h2 := updatePreVoted_finalized_ge
        (({ s with headers := s.headers.add h
          } : FinalityManager).updatePreVotesPreCommits h) hmono.1 ?_
      · rw [hfin2] at h2
        exact h2
      · rcases hF with h0 | ⟨j, hj, hm⟩
        · exact Or.inl (hfin2.trans h0)
        · refine Or.inr ⟨j, ?_, ?_⟩
          · rw [hfin2]; exact hj
          · rw [hthr2]; exact hmono.2 _ _ hm

/-- C1 amended witness: from a freshly constructed manager (finalized
height 0, one active delegate) a successful `addBlockHeader` call cannot
lower `finalizedHeight`. -/
theorem addBlockHeader_finalized_monotone_witness :
    (FinalityManager.init 0 1).finalizedHeight ≤
      (addBlockHeaderRun (fun _ => true) (FinalityManager.init 0 1)
        ⟨1, "a", 0, 0, 1⟩).2.finalizedHeight :=
  addBlockHeader_finalized_monotone (fun _ => true)
    (FinalityManager.init 0 1) ⟨1, "a", 0, 0, 1⟩ List.Pairwise.nil
    (Or.inl rfl)

/-- C1 counterexample: a manager constructed with `finalizedHeight = 500`
and one active delegate accepts the two headers `(height 1, "a")` and
`(height 2, "a")`, and the second call drops `finalizedHeight` from 500
to 1 — `finalizedHeight` is not monotonically non-decreasing over
`addBlockHeader` calls as the claim states. -/
theorem finalizedHeight_not_monotone_cex :
    (addBlockHeaderRun (fun _ => true) (FinalityManager.init 500 1)
        ⟨1, "a", 0, 0, 1⟩).1 = .ok () ∧
    (addBlockHeaderRun (fun _ => true)
        (addBlockHeaderRun (fun _ => true) (FinalityManager.init 500 1)
          ⟨1, "a", 0, 0, 1⟩).2 ⟨2, "a", 1, 1, 1⟩).1 = .ok () ∧
    (addBlockHeaderRun (fun _ => true) (FinalityManager.init 500 1)
        ⟨1, "a", 0, 0, 1⟩).2.finalizedHeight = 500 ∧
    (addBlockHeaderRun (fun _ => true)
        (addBlockHeaderRun (fun _ => true) (FinalityManager.init 500 1)
          ⟨1, "a", 0, 0, 1⟩).2 ⟨2, "a", 1, 1, 1⟩).2.finalizedHeight = 1 :=
  ⟨rfl, rfl, rfl, rfl⟩

end LiskSpec

namespace LiskSpec

theorem VoteMap.get_none_of_keysLe {m : VoteMap} {b j : Nat}
    (hb : ∀ kv ∈ m, kv.1 ≤ b) (hj : b < j) : m.get j = none := by
  cases hg : m.get j with
  | none => rfl
  | some v =>
    exfalso
    have h1 : j ≤ b := hb (j, v) (VoteMap.get_mem hg)
    omega

theorem heightRange_le {lo hi j : Nat} (h : j ∈ heightRange lo hi) :
    j ≤ hi := by
  unfold heightRange at h
  have := List.mem_range'_1.mp h
  omega

theorem keysLe_incr {m : VoteMap} {b j : Nat}
    (hb : ∀ kv ∈ m, kv.1 ≤ b) (hj : j ≤ b) :
    ∀ kv ∈ m.incr j, kv.1 ≤ b := by
  intro kv hkv
  rcases VoteMap.mem_incr kv hkv with h1 | h2
  · omega
  · exact hb kv h2

theorem voteFold_keysLe {b : Nat} :
    ∀ (L : List Nat) (m : VoteMap), (∀ kv ∈ m, kv.1 ≤ b) →
      (∀ j ∈ L, j ≤ b) → ∀ kv ∈ L.foldl VoteMap.incr m, kv.1 ≤ b := by
  intro L
  induction L with
  | nil => intro m hm _; exact hm
  | cons a rest ih =>
    intro m hm hL
    rw [List.foldl_cons]
    exact ih _ (keysLe_incr hm (hL a (List.mem_cons_self _ _)))
      (fun j hj => hL j (List.mem_cons_of_mem _ hj))

theorem commitFold_keysLe {b : Nat} (pv : VoteMap) (t : Nat) :
    ∀ (L : List Nat) (m : VoteMap) (c : Nat), (∀ kv ∈ m, kv.1 ≤ b) →
      (∀ j ∈ L, j ≤ b) →
      ∀ kv ∈ (L.foldl (commitStep pv t) (m, c)).1, kv.1 ≤ b := by
  intro L
  induction L with
  | nil => intro m c hm _; exact hm
  | cons a rest ih =>
    intro m c hm hL
    rw [List.foldl_cons]
    cases hm2 : pv.meets t a with
    | true =>
      rw [commitStep_pos pv t (m, c) a hm2]
      exact ih _ _ (keysLe_incr hm (hL a (List.mem_cons_self _ _)))
        (fun j hj => hL j (List.mem_cons_of_mem _ hj))
    | false =>
      rw [commitStep_neg pv t (m, c) a hm2]
      exact ih _ _ hm (fun j hj => hL j (List.mem_cons_of_mem _ hj))

theorem updatePreVotesPreCommits_keysLe (s : FinalityManager)
    (h : BlockHeader) {b : Nat}
    (hpv : ∀ kv ∈ s.preVotes, kv.1 ≤ b)
    (hpc : ∀ kv ∈ s.preCommits, kv.1 ≤ b) (hh : h.height ≤ b) :
    (∀ kv ∈ (s.updatePreVotesPreCommits h).preVotes, kv.1 ≤ b) ∧
    (∀ kv ∈ (s.updatePreVotesPreCommits h).preCommits, kv.1 ≤ b) := by
  unfold FinalityManager.updatePreVotesPreCommits
  by_cases hequiv : h.height ≤ h.maxHeightPreviouslyForged
  · rw [if_pos hequiv]
    exact ⟨hpv, hpc⟩
  · rw [if_neg hequiv]
    constructor
    · exact voteFold_keysLe _ _ hpv
        (fun j hj => le_trans (heightRange_le hj) hh)
    · exact commitFold_keysLe _ _ _ _ _ hpc
        (fun j hj => le_trans (heightRange_le hj) (by omega))

theorem replayFold_keysLe {b : Nat} :
    ∀ (Hs : List BlockHeader) (s : FinalityManager),
      (∀ kv ∈ s.preVotes, kv.1 ≤ b) → (∀ kv ∈ s.preCommits, kv.1 ≤ b) →
      (∀ hd ∈ Hs, hd.height ≤ b) →
      (∀ kv ∈ (Hs.foldl FinalityManager.updatePreVotesPreCommits
          s).preVotes, kv.1 ≤ b) ∧
      (∀ kv ∈ (Hs.foldl FinalityManager.updatePreVotesPreCommits
          s).preCommits, kv.1 ≤ b) := by
  intro Hs
  induction Hs with
  | nil => intro s hpv hpc _; exact ⟨hpv, hpc⟩
  | cons hd rest ih =>
    intro s hpv hpc hHs
    rw [List.foldl_cons]
    have hstep := updatePreVotesPreCommits_keysLe s hd hpv hpc
      (hHs hd (List.mem_cons_self _ _))
    exact ih _ hstep.1 hstep.2
      (fun x hx => hHs x (List.mem_cons_of_mem _ hx))

theorem replayFold_headers :
    ∀ (Hs : List BlockHeader) (s : FinalityManager),
      (Hs.foldl FinalityManager.updatePreVotesPreCommits s).headers =
        s.headers := by
  intro Hs
  induction Hs with
  | nil => intro s; rfl
  | cons hd rest ih =>
    intro s
    rw [List.foldl_cons, ih _, updatePreVotesPreCommits_headers]

/-- C6: `removeBlockHeaders({aboveHeight})` removes exactly the headers
with height strictly greater than `aboveHeight`, zeroes `state`,
`preVotes`, `preCommits` and `chainMaxHeightPrevoted` while keeping
`finalizedHeight`, and replays `updatePreVotesPreCommits` over the
remaining headers in ascending order (then re-derives the heights and
trims); afterwards no `preVotes` or `preCommits` entry exists at any
height above `aboveHeight`. -/
theorem removeBlockHeaders_spec (s : FinalityManager) (a : Nat) :
    s.removeBlockHeaders a =
      (((s.headers.remove a).items.foldl
          FinalityManager.updatePreVotesPreCommits
          { s with
            headers := s.headers.remove a
            state := []
            preVotes := []
            preCommits := []
            chainMaxHeightPrevoted :=
              0 }).updatePreVotedAndFinalizedHeight).cleanup ∧
    (s.removeBlockHeaders a).headers.items =
      s.headers.items.filter (fun hd => hd.height ≤ a) ∧
    ∀ j, a < j →
      (s.removeBlockHeaders a).preVotes.get j = none ∧
      (s.removeBlockHeaders a).preCommits.get j = none := by
  refine ⟨rfl, ?_, ?_⟩
  · show ((((s.headers.remove a).items.foldl
        FinalityManager.updatePreVotesPreCommits
        _).updatePreVotedAndFinalizedHeight).cleanup).headers.items = _
    rw [cleanup_headers, updatePreVoted_headers, replayFold_headers]
    rfl
  · intro j hj
    have hfil : ∀ hd ∈ (s.headers.remove a).items, hd.height ≤ a := by
      intro hd hhd
      have := List.of_mem_filter hhd
      simpa using this
    have hfold := replayFold_keysLe (b := a) (s.headers.remove a).items
      { s with
        headers := s.headers.remove a
        state := []
        preVotes := []
        preCommits := []
        chainMaxHeightPrevoted := 0 }
      (by intro kv hkv; exact absurd hkv (List.not_mem_nil kv))
      (by intro kv hkv; exact absurd hkv (List.not_mem_nil kv)) hfil
    constructor
    · apply VoteMap.get_none_of_keysLe _ hj
      intro kv hkv
      show kv.1 ≤ a
      have hkv2 : kv ∈ ((s.headers.remove a).items.foldl
          FinalityManager.updatePreVotesPreCommits
          { s with
            headers := s.headers.remove a
            state := []
            preVotes := []
            preCommits := []
            chainMaxHeightPrevoted := 0 }).preVotes := by
        have h1 := hkv
        rw [show (s.removeBlockHeaders a).preVotes =
            (((s.headers.remove a).items.foldl
              FinalityManager.updatePreVotesPreCommits
              { s with
                headers := s.headers.remove a
                state := []
                preVotes := []
                preCommits := []
                chainMaxHeightPrevoted :=
                  0 }).updatePreVotedAndFinalizedHeight).cleanup.preVotes
          from rfl] at h1
        rw [show (((s.headers.remove a).items.foldl
            FinalityManager.updatePreVotesPreCommits
            { s with
              headers := s.headers.remove a
              state := []
              preVotes := []
              preCommits := []
              chainMaxHeightPrevoted :=
                0 }).updatePreVotedAndFinalizedHeight).cleanup.preVotes =
            VoteMap.trim (((s.headers.remove a).items.foldl
              FinalityManager.updatePreVotesPreCommits
              { s with
                headers := s.headers.remove a
                state := []
                preVotes := []
                preCommits := []
                chainMaxHeightPrevoted :=
                  0
              }).updatePreVotedAndFinalizedHeight).preVotes _ from rfl,
          updatePreVoted_preVotes] at h1
        exact List.mem_of_mem_drop h1
      exact hfold.1 kv hkv2
    · apply VoteMap.get_none_of_keysLe _ hj
      intro kv hkv
      show kv.1 ≤ a
      have hkv2 : kv ∈ ((s.headers.remove a).items.foldl
          FinalityManager.updatePreVotesPreCommits
          { s with
            headers := s.headers.remove a
            state := []
            preVotes := []
            preCommits := []
            chainMaxHeightPrevoted := 0 }).preCommits := by
        have h1 := hkv
        rw [show (s.removeBlockHeaders a).preCommits =
            VoteMap.trim (((s.headers.remove a).items.foldl
              FinalityManager.updatePreVotesPreCommits
              { s with
                headers := s.headers.remove a
                state := []
                preVotes := []
                preCommits := []
                chainMaxHeightPrevoted :=
                  0
              }).updatePreVotedAndFinalizedHeight).preCommits _ from rfl,
          updatePreVoted_preCommits] at h1
        exact List.mem_of_mem_drop h1
      exact hfold.2 kv hkv2

/-- C6 witness: after one header at height 1 is added and
`removeBlockHeaders({aboveHeight: 0})` runs, no tally survives at
height 1. -/
theorem removeBlockHeaders_spec_witness :
    ((addBlockHeaderRun (fun _ => true) (FinalityManager.init 0 1)
        ⟨1, "a", 0, 0, 1⟩).2.removeBlockHeaders 0).preVotes.get 1 =
      none ∧
    ((addBlockHeaderRun (fun _ => true) (FinalityManager.init 0 1)
        ⟨1, "a", 0, 0, 1⟩).2.removeBlockHeaders 0).preCommits.get 1 =
      none :=
  (removeBlockHeaders_spec _ 0).2.2 1 (by decide)

end LiskSpec

namespace LiskSpec

theorem addBlockHeaderRun_invalid (v : BlockHeader → Bool)
    (s : FinalityManager) (h : BlockHeader) (hv : v h = false) :
    addBlockHeaderRun v s h = (.error .invalidHeaderSchema, s) := by
  unfold addBlockHeaderRun
  rw [if_pos hv]

theorem addBlockHeaderRun_verifyError (v : BlockHeader → Bool)
    (s : FinalityManager) (h : BlockHeader) (e : BftError)
    (hv : v h = true) (hver : s.verifyBlockHeaders h = .error e) :
    addBlockHeaderRun v s h = (.error e, s) := by
  unfold addBlockHeaderRun
  rw [if_neg (by simp [hv]), hver]

theorem addBlockHeaderRun_ok (v : BlockHeader → Bool)
    (s : FinalityManager) (h : BlockHeader)
    (hv : v h = true) (hver : s.verifyBlockHeaders h = .ok ()) :
    addBlockHeaderRun v s h =
      (.ok (), ((({ s with headers := s.headers.add h } :
          FinalityManager).updatePreVotesPreCommits
          h).updatePreVotedAndFinalizedHeight).cleanup) := by
  unfold addBlockHeaderRun
  rw [if_neg (by simp [hv]), hver]

theorem HeadersList.add_items (l : HeadersList) (h : BlockHeader)
    (hsize : 1 ≤ l.size) :
    (l.add h).items = l.items.drop (l.items.length + 1 - l.size) ++ [h]
    := by
  unfold HeadersList.add
  dsimp only
  simp only [List.length_append, List.length_cons, List.length_nil]
  rw [List.drop_append_of_le_length (by omega)]

theorem HeadersList.maxHeight_add (l : HeadersList) (h : BlockHeader)
    (hsize : 1 ≤ l.size) : (l.add h).maxHeight = h.height := by
  unfold HeadersList.maxHeight
  rw [HeadersList.add_items l h hsize, List.getLast?_concat]

theorem sorted_height_le_getLast {l : List BlockHeader}
    (hs : List.Pairwise (fun x y => x.height < y.height) l) {x : BlockHeader}
    (hx : x ∈ l) {t : BlockHeader} (ht : l.getLast? = some t) :
    x.height ≤ t.height := by
  induction l with
  | nil => exact absurd hx (List.not_mem_nil x)
  | cons a rest ih =>
    obtain ⟨ha, hrest⟩ := List.pairwise_cons.mp hs
    cases rest with
    | nil =>
      rw [List.getLast?_singleton] at ht
      injection ht with ht2
      rcases List.mem_singleton.mp hx with rfl
      rw [ht2]
    | cons b rest2 =>
      rw [List.getLast?_cons_cons] at ht
      have htm : t ∈ b :: rest2 := List.mem_of_mem_getLast? ht
      rcases List.mem_cons.mp hx with rfl | hmem
      · exact le_of_lt (ha t htm)
      · exact ih hrest hmem ht

theorem headers_height_le_maxHeight (l : HeadersList)
    (hs : List.Pairwise (fun x y => x.height < y.height) l.items)
    {x : BlockHeader} (hx : x ∈ l.items) : x.height ≤ l.maxHeight := by
  unfold HeadersList.maxHeight
  cases hgl : l.items.getLast? with
  | none =>
    rw [List.getLast?_eq_none_iff.mp hgl] at hx
    exact absurd hx (List.not_mem_nil x)
  | some t => exact sorted_height_le_getLast hs hx hgl

theorem VoteMap.findHighest_mem {m : VoteMap} {t k : Nat}
    (h : m.findHighest t = some k) : ∃ v, (k, v) ∈ m := by
  unfold VoteMap.findHighest at h
  cases hf : m.reverse.find? (fun kv => t ≤ kv.2) with
  | none => rw [hf] at h; exact absurd h (by simp)
  | some kv0 =>
    rw [hf] at h
    obtain ⟨a, b⟩ := kv0
    have h2 : (a, b) ∈ m := List.mem_reverse.mp (List.mem_of_find?_eq_some hf)
    have h3 : a = k := by simpa using h
    exact ⟨b, h3 ▸ h2⟩

theorem updatePreVoted_chainMax_cases (s : FinalityManager) :
    s.updatePreVotedAndFinalizedHeight.chainMaxHeightPrevoted =
      s.chainMaxHeightPrevoted ∨
    ∃ k v, (k, v) ∈ s.preVotes ∧
      s.updatePreVotedAndFinalizedHeight.chainMaxHeightPrevoted = k := by
  unfold FinalityManager.updatePreVotedAndFinalizedHeight
  by_cases hemp : s.headers.items.isEmpty = true
  · rw [if_pos hemp]
    exact Or.inl rfl
  · rw [if_neg hemp]
    cases hpv : VoteMap.findHighest s.preVotes s.preVoteThreshold with
    | some k =>
      obtain ⟨v, hv⟩ := VoteMap.findHighest_mem hpv
      refine Or.inr ⟨k, v, hv, ?_⟩
      cases hfc : VoteMap.findHighest s.preCommits s.preCommitThreshold <;>
        rfl
    | none =>
      refine Or.inl ?_
      cases hfc : VoteMap.findHighest s.preCommits s.preCommitThreshold <;>
        rfl

theorem replayFold_chainMax :
    ∀ (Hs : List BlockHeader) (s : FinalityManager),
      (Hs.foldl FinalityManager.updatePreVotesPreCommits
        s).chainMaxHeightPrevoted = s.chainMaxHeightPrevoted := by
  intro Hs
  induction Hs with
  | nil => intro s; rfl
  | cons hd rest ih =>
    intro s
    rw [List.foldl_cons, ih _, updatePreVotesPreCommits_chainMax]

/-- The inductive invariant behind C7: positive capacity, headers sorted
by strictly ascending height, every pre-vote and pre-commit tally key at
most the top stored height, and `chainMaxHeightPrevoted` at most the top
stored height. -/
def FinalityInv (s : FinalityManager) : Prop :=
  1 ≤ s.headers.size ∧
  List.Pairwise (fun x y => x.height < y.height) s.headers.items ∧
  (∀ kv ∈ s.preVotes, kv.1 ≤ s.headers.maxHeight) ∧
  (∀ kv ∈ s.preCommits, kv.1 ≤ s.headers.maxHeight) ∧
  s.chainMaxHeightPrevoted ≤ s.headers.maxHeight

/-- States reachable from a constructed FinalityManager by
`addBlockHeader` and `removeBlockHeaders` calls.  Appended headers sit
above the current top of the list, as the spec's HeadersList ("append
(highest only)") and the schema's monotonic heights require; failed
`addBlockHeader` calls leave the state unchanged and are included. -/
inductive Reachable : FinalityManager → Prop where
  | init (f D : Nat) (hD : 0 < D) : Reachable (FinalityManager.init f D)
  | addStep (v : BlockHeader → Bool) {s : FinalityManager}
      (h : BlockHeader) (hr : Reachable s)
      (hhi : s.headers.items = [] ∨ s.headers.maxHeight < h.height) :
      Reachable (addBlockHeaderRun v s h).2
  | removeStep {s : FinalityManager} (a : Nat) (hr : Reachable s) :
      Reachable (s.removeBlockHeaders a)

end LiskSpec


namespace LiskSpec

theorem addBlockHeader_preserves_inv (v : BlockHeader → Bool)
    (s : FinalityManager) (h : BlockHeader) (hinv : FinalityInv s)
    (hhi : s.headers.items = [] ∨ s.headers.maxHeight < h.height) :
    FinalityInv (addBlockHeaderRun v s h).2 := by
  obtain ⟨hsize, hsort, hkv, hkc, hcm⟩ := hinv
  by_cases hv : v h = false
  · rw [addBlockHeaderRun_invalid v s h hv]
    exact ⟨hsize, hsort, hkv, hkc, hcm⟩
  · have hv2 : v h = true := by revert hv; cases v h <;> simp
    cases hver : s.verifyBlockHeaders h with
    | error e =>
      rw [addBlockHeaderRun_verifyError v s h e hv2 hver]
      exact ⟨hsize, hsort, hkv, hkc, hcm⟩
    | ok u =>
      cases u
      rw [addBlockHeaderRun_ok v s h hv2 hver]
      have hmaxle : s.headers.maxHeight ≤ h.height := by
        rcases hhi with he | hlt
        · simp [HeadersList.maxHeight, he]
        · omega
      have hsort1 : List.Pairwise (fun x y => x.height < y.height)
          (s.headers.add h).items := by
        rw [HeadersList.add_items s.headers h hsize]
        refine List.pairwise_append.mpr ⟨?_, ?_, ?_⟩
        · exact List.Pairwise.sublist (List.drop_sublist _ _) hsort
        · exact List.pairwise_singleton _ _
        · intro x hx y hy
          rcases List.mem_singleton.mp hy with rfl
          have hx2 : x ∈ s.headers.items := List.mem_of_mem_drop hx
          rcases hhi with he | hlt
          · rw [he] at hx2
            exact absurd hx2 (List.not_mem_nil x)
          · exact lt_of_le_of_lt
              (headers_height_le_maxHeight s.headers hsort hx2) hlt
      have hkeys2 := updatePreVotesPreCommits_keysLe
        { s with headers := s.headers.add h } h (b := h.height)
        (fun kv hkv2 => le_trans (hkv kv hkv2) hmaxle)
        (fun kv hkv2 => le_trans (hkc kv hkv2) hmaxle)
        (le_refl _)
      refine ⟨?_, ?_, ?_, ?_, ?_⟩
      · rw [cleanup_headers, updatePreVoted_headers,
          updatePreVotesPreCommits_headers]
        exact hsize
      · rw [cleanup_headers, updatePreVoted_headers,
          updatePreVotesPreCommits_headers]
        exact hsort1
      · intro kv hkv2
        rw [cleanup_headers, updatePreVoted_headers,
          updatePreVotesPreCommits_headers]
        dsimp only
        rw [HeadersList.maxHeight_add s.headers h hsize]
        have hm2 : kv ∈ ((({ s with headers := s.headers.add h } :
            FinalityManager).updatePreVotesPreCommits
            h).updatePreVotedAndFinalizedHeight).preVotes :=
          List.mem_of_mem_drop hkv2
        rw [updatePreVoted_preVotes] at hm2
        exact hkeys2.1 kv hm2
      · intro kv hkv2
        rw [cleanup_headers, updatePreVoted_headers,
          updatePreVotesPreCommits_headers]
        dsimp only
        rw [HeadersList.maxHeight_add s.headers h hsize]
        have hm2 : kv ∈ ((({ s with headers := s.headers.add h } :
            FinalityManager).updatePreVotesPreCommits
            h).updatePreVotedAndFinalizedHeight).preCommits :=
          List.mem_of_mem_drop hkv2
        rw [updatePreVoted_preCommits] at hm2
        exact hkeys2.2 kv hm2
      · rw [cleanup_chainMax, cleanup_headers, updatePreVoted_headers,
          updatePreVotesPreCommits_headers]
        dsimp only
        rw [HeadersList.maxHeight_add s.headers h hsize]
        rcases updatePreVoted_chainMax_cases
            (({ s with headers := s.headers.add h } :
              FinalityManager).updatePreVotesPreCommits h) with
          heq | ⟨k, v2, hmem, heq⟩
        · rw [heq, updatePreVotesPreCommits_chainMax]
          exact le_trans hcm hmaxle
        · rw [heq]
          exact hkeys2.1 (k, v2) hmem

end LiskSpec

namespace LiskSpec

theorem removeBlockHeaders_eq (s : FinalityManager) (a : Nat) :
    s.removeBlockHeaders a =
      (((s.headers.remove a).items.foldl
          FinalityManager.updatePreVotesPreCommits
          { s with
            headers := s.headers.remove a
            state := []
            preVotes := []
            preCommits := []
            chainMaxHeightPrevoted :=
              0 }).updatePreVotedAndFinalizedHeight).cleanup := rfl

theorem removeBlockHeaders_preserves_inv (s : FinalityManager) (a : Nat)
    (hinv : FinalityInv s) : FinalityInv (s.removeBlockHeaders a) := by
  obtain ⟨hsize, hsort, _, _, _⟩ := hinv
  have hsortF : List.Pairwise (fun x y => x.height < y.height)
      (s.headers.remove a).items :=
    List.Pairwise.sublist (List.filter_sublist _) hsort
  have hfil : ∀ hd ∈ (s.headers.remove a).items,
      hd.height ≤ (s.headers.remove a).maxHeight :=
    fun hd hhd => headers_height_le_maxHeight _ hsortF hhd
  have hfold := replayFold_keysLe (b := (s.headers.remove a).maxHeight)
    (s.headers.remove a).items
    { s with
      headers := s.headers.remove a
      state := []
      preVotes := []
      preCommits := []
      chainMaxHeightPrevoted := 0 }
    (fun kv hkv => absurd hkv (List.not_mem_nil kv))
    (fun kv hkv => absurd hkv (List.not_mem_nil kv)) hfil
  rw [removeBlockHeaders_eq s a]
  refine ⟨?_, ?_, ?_, ?_, ?_⟩
  · rw [cleanup_headers, updatePreVoted_headers, replayFold_headers]
    exact hsize
  · rw [cleanup_headers, updatePreVoted_headers, replayFold_headers]
    exact hsortF
  · intro kv hkv2
    rw [cleanup_headers, updatePreVoted_headers, replayFold_headers]
    have hm2 : kv ∈ (((s.headers.remove a).items.foldl
        FinalityManager.updatePreVotesPreCommits
        { s with
          headers := s.headers.remove a
          state := []
          preVotes := []
          preCommits := []
          chainMaxHeightPrevoted :=
            0 }).updatePreVotedAndFinalizedHeight).preVotes :=
      List.mem_of_mem_drop hkv2
    rw [updatePreVoted_preVotes] at hm2
    exact hfold.1 kv hm2
  · intro kv hkv2
    rw [cleanup_headers, updatePreVoted_headers, replayFold_headers]
    have hm2 : kv ∈ (((s.headers.remove a).items.foldl
        FinalityManager.updatePreVotesPreCommits
        { s with
          headers := s.headers.remove a
          state := []
          preVotes := []
          preCommits := []
          chainMaxHeightPrevoted :=
            0 }).updatePreVotedAndFinalizedHeight).preCommits :=
      List.mem_of_mem_drop hkv2
    rw [updatePreVoted_preCommits] at hm2
    exact hfold.2 kv hm2
  · rw [cleanup_chainMax, cleanup_headers, updatePreVoted_headers,
      replayFold_headers]
    rcases updatePreVoted_chainMax_cases
        ((s.headers.remove a).items.foldl
          FinalityManager.updatePreVotesPreCommits
          { s with
            headers := s.headers.remove a
            state := []
            preVotes := []
            preCommits := []
            chainMaxHeightPrevoted := 0 }) with heq | ⟨k, v2, hmem, heq⟩
    · rw [heq, replayFold_chainMax]
      exact Nat.zero_le _
    · rw [heq]
      exact hfold.1 (k, v2) hmem

/-- C7: in every FinalityManager state reachable by any sequence of
`addBlockHeader` and `removeBlockHeaders` calls,
`chainMaxHeightPrevoted` is at most the maximum height among the stored
headers (0 when the list is empty). -/
theorem chainMax_le_maxHeight (s : FinalityManager) (hr : Reachable s) :
    s.chainMaxHeightPrevoted ≤ s.headers.maxHeight := by
  have hinv : FinalityInv s := by
    induction hr with
    | init f D hD =>
      refine ⟨?_, List.Pairwise.nil, ?_, ?_, Nat.zero_le _⟩
      · show 1 ≤ D * 5
        omega
      · intro kv hkv
        exact absurd hkv (List.not_mem_nil kv)
      · intro kv hkv
        exact absurd hkv (List.not_mem_nil kv)
    | addStep v h hr hhi ih => exact addBlockHeader_preserves_inv v _ h ih hhi
    | removeStep a hr ih => exact removeBlockHeaders_preserves_inv _ a ih
  exact hinv.2.2.2.2

/-- C7 witness: the bound holds in the concrete reachable state obtained
by one successful `addBlockHeader` on a fresh manager. -/
theorem chainMax_le_maxHeight_witness :
    ((addBlockHeaderRun (fun _ => true) (FinalityManager.init 500 1)
        ⟨1, "a", 0, 0, 1⟩).2).chainMaxHeightPrevoted ≤
      ((addBlockHeaderRun (fun _ => true) (FinalityManager.init 500 1)
        ⟨1, "a", 0, 0, 1⟩).2).headers.maxHeight :=
  chainMax_le_maxHeight _
    (Reachable.addStep (fun _ => true) ⟨1, "a", 0, 0, 1⟩
      (Reachable.init 500 1 (by decide)) (Or.inl rfl))

end LiskSpec

namespace LiskSpec

theorem mem_of_mem_jsSlice {α : Type} {l : List α} {e : Int} {q : α}
    (h : q ∈ jsSlice l e) : q ∈ l := by
  unfold jsSlice at h
  split at h <;> exact List.mem_of_mem_take h

/-- C8 amended: every entry of the `getPeersList` response is the
sanitized form of a sampled peer whose `advertiseAddress` is not `false`;
and whenever the serialized size of the sanitized list is not strictly
below the configured `wsMaxPayload`, the response is the first
`⌊DEFAULT_WS_MAX_PAYLOAD / maxPeerInfoSize⌋ − 1` entries of the sanitized
list — the numerator being the default 1 MiB payload bound, not the
configured `wsMaxPayload`, which is only used for the size comparison
(stated for a quotient of at least 1; below that the JS `slice` end index
is negative). -/
theorem handleGetPeersRequest_characterization
    (byteSize : List ProtocolPeerInfo → Nat) (cfg : DiscoveryConfig)
    (selectedPeers : List P2PPeerInfo) :
    (∀ q ∈ handleGetPeersRequest byteSize cfg selectedPeers,
      ∃ p, p ∈ selectedPeers ∧ advertiseOk p = true ∧
        q = sanitizePeer p) ∧
    (¬ byteSize ((selectedPeers.filter advertiseOk).map sanitizePeer) <
        jsConfigOr cfg.wsMaxPayload DEFAULT_WS_MAX_PAYLOAD →
      1 ≤ DEFAULT_WS_MAX_PAYLOAD /
          jsConfigOr cfg.maxPeerInfoSize DEFAULT_MAX_PEER_INFO_SIZE →
      handleGetPeersRequest byteSize cfg selectedPeers =
        ((selectedPeers.filter advertiseOk).map sanitizePeer).take
          (DEFAULT_WS_MAX_PAYLOAD /
            jsConfigOr cfg.maxPeerInfoSize DEFAULT_MAX_PEER_INFO_SIZE -
            1)) := by
  constructor
  · intro q hq
    have hq2 : q ∈ (selectedPeers.filter advertiseOk).map sanitizePeer := by
      simp only [handleGetPeersRequest] at hq
      split at hq
      · exact hq
      · exact mem_of_mem_jsSlice hq
    obtain ⟨p, hp1, hp2⟩ := List.mem_map.mp hq2
    exact ⟨p, List.mem_of_mem_filter hp1, List.of_mem_filter hp1, hp2.symm⟩
  · intro hbs hN
    unfold handleGetPeersRequest
    rw [if_neg hbs]
    unfold jsSlice
    rw [if_neg (by omega)]
    congr 1
    omega

/-- A sample peer record with no internal state. -/
def samplePeer : P2PPeerInfo :=
  { peerId := "10.0.0.1:5000", ipAddress := "10.0.0.1", wsPort := 5000,
    sharedState := [], internalState := none }

set_option maxRecDepth 40000 in
/-- C8 amended witness: with the default 1 MiB payload bound,
`maxPeerInfoSize = 10 KiB` and 200 sampled peers of 10 KiB each, the
response is cut to the first `⌊1 MiB / 10 KiB⌋ − 1 = 101` entries. -/
theorem handleGetPeersRequest_characterization_witness :
    handleGetPeersRequest (fun l => 10240 * l.length)
        ⟨none, some 10240, none, none⟩ (List.replicate 200 samplePeer) =
      (((List.replicate 200 samplePeer).filter advertiseOk).map
          sanitizePeer).take
        (DEFAULT_WS_MAX_PAYLOAD /
          jsConfigOr (some 10240) DEFAULT_MAX_PEER_INFO_SIZE - 1) :=
  (handleGetPeersRequest_characterization (fun l => 10240 * l.length)
    ⟨none, some 10240, none, none⟩ (List.replicate 200 samplePeer)).2
    (by decide) (by decide)

set_option maxRecDepth 100000 in
/-- C8 counterexample: with a configured `wsMaxPayload` of 2 MiB,
`maxPeerInfoSize = 10 KiB` and 300 sampled peers of 10 KiB each (total
3 MB, not below the configured payload), the response holds 101 entries,
not the `⌊wsMaxPayload / maxPeerInfoSize⌋ − 1 = 203` the claim requires:
the code divides the DEFAULT payload bound, not the configured one. -/
theorem getPeersList_trim_uses_default_cex :
    (handleGetPeersRequest (fun l => 10240 * l.length)
        ⟨some 2097152, some 10240, none, none⟩
        (List.replicate 300 samplePeer)).length = 101 ∧
    ((((List.replicate 300 samplePeer).filter advertiseOk).map
        sanitizePeer).take (2097152 / 10240 - 1)).length = 203 ∧
    ¬ (10240 * (((List.replicate 300 samplePeer).filter advertiseOk).map
        sanitizePeer).length < 2097152) ∧
    handleGetPeersRequest (fun l => 10240 * l.length)
        ⟨some 2097152, some 10240, none, none⟩
        (List.replicate 300 samplePeer) ≠
      (((List.replicate 300 samplePeer).filter advertiseOk).map
          sanitizePeer).take (2097152 / 10240 - 1) := by
  refine ⟨by decide, by decide, by decide, by decide⟩

end LiskSpec

namespace LiskSpec

/-- C9 amended: the inbound `connection` handler never consults
`bannedIPs` (the ban set has no effect on the emitted events or the
resulting pool); it rejects — emitting `FailedToAddInboundPeer` for the
`DUPLICATE_CONNECTION` status — exactly when the pool already holds a
peer under the socket's id, and otherwise appends the incoming peer to
the inbound pool and emits `NewInboundPeer`; in both branches the peer
is added to the address book with `ExistingPeer` tolerated. -/
theorem handleInboundConnection_characterization (s : P2PNodeState)
    (socket : ServerSocket) :
    (∀ b1 b2 : List String,
      (handleInboundConnection { s with bannedIPs := b1 } socket).2 =
        (handleInboundConnection { s with bannedIPs := b2 } socket).2 ∧
      (handleInboundConnection { s with bannedIPs := b1 } socket).1.pool =
        (handleInboundConnection { s with bannedIPs := b2 }
          socket).1.pool) ∧
    ((handleInboundConnection s socket).2 = [.failedToAddInboundPeer] ↔
      (poolGet s.pool socket.id).isSome = true) ∧
    ((handleInboundConnection s socket).2 =
        [.newInboundPeer (mkIncomingPeerInfo socket)] ↔
      (poolGet s.pool socket.id).isSome = false) ∧
    (handleInboundConnection s socket).1.book =
      s.book.addPeerTolerant (mkIncomingPeerInfo socket).peerId ∧
    ((poolGet s.pool socket.id).isSome = false →
      (handleInboundConnection s socket).1.pool =
        s.pool ++ [((mkIncomingPeerInfo socket).peerId,
          mkIncomingPeerInfo socket)]) := by
  refine ⟨fun b1 b2 => ?_, ?_⟩
  · unfold handleInboundConnection
    rw [show ({ s with bannedIPs := b1 } : P2PNodeState).pool = s.pool
        from rfl,
      show ({ s with bannedIPs := b2 } : P2PNodeState).pool = s.pool
        from rfl]
    cases hp : poolGet s.pool socket.id <;> exact ⟨rfl, rfl⟩
  · unfold handleInboundConnection
    cases hp : poolGet s.pool socket.id with
    | some p => simp
    | none => simp

/-- A node state with one banned IP, an empty pool and no whitelist. -/
def bannedState : P2PNodeState :=
  { isActive := true, hasConnected := false, populatorRunning := true,
    bannedIPs := ["9.9.9.9"], whitelistedIds := [], pool := [],
    book := ⟨[], []⟩ }

/-- An inbound socket from the banned address. -/
def bannedSocket : ServerSocket :=
  { id := "9.9.9.9", infoId := "9.9.9.9:7001", wsPort := 7001,
    protocolVersion := "1.1", advertiseAddress := true }

/-- C9 counterexample: the socket's address is banned and not
whitelisted, yet the handler accepts the connection — it emits
`NewInboundPeer` and adds the peer to the pool — because the inbound
path performs no banned-IP check (the server is even constructed with a
constant empty banned list).  This refutes the claimed rejection of
banned addresses. -/
theorem inbound_no_ban_check_cex :
    bannedSocket.id ∈ bannedState.bannedIPs ∧
    (mkIncomingPeerInfo bannedSocket).peerId ∉ bannedState.whitelistedIds ∧
    (handleInboundConnection bannedState bannedSocket).2 =
      [.newInboundPeer (mkIncomingPeerInfo bannedSocket)] ∧
    poolGet (handleInboundConnection bannedState bannedSocket).1.pool
        (mkIncomingPeerInfo bannedSocket).peerId =
      some (mkIncomingPeerInfo bannedSocket) := by
  refine ⟨by decide, by decide, by decide, by decide⟩

end LiskSpec

namespace LiskSpec

/-- C9 amended witness: on the concrete banned-but-not-pooled socket, the
accepting branch of the characterization applies — the peer lands in
the pool. -/
theorem handleInboundConnection_characterization_witness :
    (handleInboundConnection bannedState bannedSocket).1.pool =
      bannedState.pool ++ [((mkIncomingPeerInfo bannedSocket).peerId,
        mkIncomingPeerInfo bannedSocket)] :=
  (handleInboundConnection_characterization bannedState
    bannedSocket).2.2.2.2 (by decide)

end LiskSpec
